import Mathlib

set_option maxRecDepth 100000

/-!
A shallow embedding of the matching-and-aggregation core of ld-find-code-refs
(package `search`, file `search.go`), together with theorems checking the
natural-language specification against it.

Modelling conventions:
- A Go string is modelled as its sequence of runes (`List Char`); for valid
  UTF-8 input, byte-level substring search (`strings.Contains`) coincides with
  rune-level substring search, and `len(s)` (byte length) is modelled by
  `utf8Len` (the sum of the UTF-8 sizes of the runes).
- Go code that can panic (out-of-bounds slice indexing) is modelled in the
  `Except Unit` monad, `Except.error ()` standing for a runtime panic.
- `linesIfMatch` writes truncated rows back through the `context` slice, which
  aliases the backing array of `f.lines`; the embedding makes that mutation
  explicit by returning the updated line list alongside the result, and the
  per-file loops thread that state from call to call exactly as the shared
  backing array does in Go.
- The consuming loop of `SearchForRefs` receives per-file results from a
  channel; the embedding abstracts the arrival order as a list and models the
  sequential consuming loop itself.
-/

namespace CodeRefs

/-- A Go string, modelled as its sequence of runes. -/
abbrev GoStr := List Char

/-- Go `len(s)` for a string: the UTF-8 byte length. -/
def utf8Len (s : GoStr) : Nat := (s.map Char.utf8Size).sum

/-- Whether `pat` is an initial segment of `s` (rune-wise). -/
def startsWithChars : GoStr → GoStr → Bool
  | [], _ => true
  | _ :: _, [] => false
  | p :: ps, c :: cs => if p = c then startsWithChars ps cs else false

/-- Go `strings.Contains(s, pat)`: `pat` occurs as a contiguous substring of `s`. -/
def strContains (s pat : GoStr) : Bool := s.tails.any (fun t => startsWithChars pat t)

/-- Go `strings.Split(s, "\n")`: never returns an empty list. -/
def splitNL : GoStr → List GoStr
  | [] => [[]]
  | c :: cs =>
      if c = '\n' then [] :: splitNL cs
      else
        match splitNL cs with
        | [] => [[c]]
        | l :: ls => (c :: l) :: ls

/-- Go `strings.Join(rows, "\n")`. -/
def joinNL : List GoStr → GoStr
  | [] => []
  | [r] => r
  | r :: rs => r ++ '\n' :: joinNL rs

/-- Go `strings.Count(s, "\n")`. -/
def countNL (s : GoStr) : Nat := s.count '\n'

/-- Maximum number of files containing code references (search.go). -/
def maxFileCount : Nat := 10000

/-- Maximum number of total code references (search.go). -/
def maxHunkCount : Nat := 25000

/-- Maximum number of characters per line (search.go). -/
def maxLineCharCount : Nat := 500

/-- Go `truncateLine` (search.go).  The byte length is compared against
`maxLineCharCount`; a longer line is converted to a rune slice and sliced as
`runes[0:maxLineCharCount]`.  In Go that slice expression panics when the line
has more than `maxLineCharCount` bytes but fewer than `maxLineCharCount` runes
(the bound exceeds the slice's length); the panic is modelled as `none`. -/
def truncateLine (line : GoStr) : Option GoStr :=
  if utf8Len line ≤ maxLineCharCount then some line
  else if maxLineCharCount ≤ line.length then
    some (line.take maxLineCharCount ++ ['…'])
  else none

/-- Go `matchDelimiters` (search.go): some left delimiter and some right
delimiter flank `flagKey` somewhere inside `line`. -/
def matchDelimiters (line flagKey delimiters : GoStr) : Bool :=
  delimiters.any (fun left =>
    delimiters.any (fun right =>
      strContains line (left :: (flagKey ++ [right]))))

/-- Modelled from the spec: `ld.HunkRep` (package `internal/ld` is not in
src/); field set and order taken from the construction sites in search.go and
the spec's Hunk data model (project key, identifier, 1-based starting line,
newline-joined text, matched aliases). -/
structure HunkRep where
  ProjKey : GoStr
  FlagKey : GoStr
  StartingLineNumber : Int
  Lines : GoStr
  Aliases : List GoStr
deriving DecidableEq

/-- Modelled from the spec: `ld.HunkRep.NumLines` (not in src/): the number of
lines of the hunk's text, computed from the joined text ("the number of lines
in `text`"). -/
def HunkRep.NumLines (h : HunkRep) : Nat := countNL h.Lines + 1

/-- Modelled from the spec: `ld.HunkRep.Overlap` (not in src/): the number of
overlapping lines between the receiver and the argument, computed "purely from
`startingLine` and the number of lines in `text`"; negative when the hunks do
not touch.  The usage in `mergeHunks` (slice index into the later hunk's rows,
subset test against their count) forces this formula. -/
def HunkRep.Overlap (a b : HunkRep) : Int :=
  a.StartingLineNumber + (a.NumLines : Int) - b.StartingLineNumber

/-- Modelled from the spec: `helpers.Dedupe` (package `internal/helpers` is
not in src/): deduplicates a list of strings, keeping first occurrences
("the alias set is the union (deduplicated) of both"). -/
def Dedupe (xs : List GoStr) : List GoStr :=
  xs.foldl (fun acc x => if x ∈ acc then acc else acc ++ [x]) []

/-- Go `file` (search.go): a path plus the file's lines. -/
structure file where
  path : GoStr
  lines : List GoStr
deriving DecidableEq

/-- Go `file.linesIfMatch` (search.go).  Returns the optional hunk for one
line together with the updated `f.lines` (the `context` slice aliases
`f.lines`' backing array, so writing truncated rows into it mutates the file's
lines).  `Except.error ()` models a Go panic: either the out-of-bounds rune
slice inside `truncateLine`, or slicing `f.lines` past its length. -/
def file.linesIfMatch (f : file) (projKey flagKey line : GoStr) (aliases : List GoStr)
    (matchLineNum : Nat) (ctxLines : Int) (delimiters : GoStr) :
    Except Unit (Option HunkRep × List GoStr) :=
  let matchedFlag : Bool := matchDelimiters line flagKey delimiters
  let aliasMatches : List GoStr := aliases.filter (fun al => strContains line al)
  if matchedFlag = false ∧ aliasMatches = [] then
    Except.ok (none, f.lines)
  else if 0 ≤ ctxLines then
    let startingLineNum : Nat := ((matchLineNum : Int) - ctxLines).toNat
    let endingLineNum : Int := (matchLineNum : Int) + ctxLines + 1
    if startingLineNum ≤ f.lines.length then
      let context : List GoStr :=
        if (f.lines.length : Int) ≤ endingLineNum then f.lines.drop startingLineNum
        else (f.lines.drop startingLineNum).take (endingLineNum.toNat - startingLineNum)
      match context.mapM truncateLine with
      | none => Except.error ()
      | some truncated =>
          Except.ok (some
            { ProjKey := projKey
              FlagKey := flagKey
              StartingLineNumber := (startingLineNum : Int) + 1
              Lines := joinNL truncated
              Aliases := aliasMatches.foldl (fun _acc al => [al]) [] },
            f.lines.take startingLineNum ++ truncated
              ++ f.lines.drop (startingLineNum + truncated.length))
    else Except.error ()
  else
    Except.ok (some
      { ProjKey := projKey
        FlagKey := flagKey
        StartingLineNumber := (matchLineNum : Int) + 1
        Lines := joinNL []
        Aliases := aliasMatches.foldl (fun _acc al => [al]) [] },
      f.lines)

/-- Go `mergeHunks` (search.go).  The initial `a, b = b, a` swap (performed
when `a.StartingLineNumber > b.StartingLineNumber`) is rendered as two
conditionals. -/
def mergeHunks (a0 b0 : HunkRep) (ctxLines : Int) : List HunkRep :=
  let a := if b0.StartingLineNumber < a0.StartingLineNumber then b0 else a0
  let b := if b0.StartingLineNumber < a0.StartingLineNumber then a0 else b0
  let aLines := splitNL a.Lines
  let bLines := splitNL b.Lines
  let overlap := a.Overlap b
  if ctxLines < 0 ∨ overlap < 0 then [a, b]
  else if (bLines.length : Int) ≤ overlap then [a]
  else
    [{ StartingLineNumber := a.StartingLineNumber
       Lines := joinNL (aLines ++ bLines.drop overlap.toNat)
       ProjKey := a.ProjKey
       FlagKey := a.FlagKey
       Aliases := Dedupe (a.Aliases ++ b.Aliases) }]

/-- The matched-or-not test of `linesIfMatch` in isolation: the line matches
the flag key (with delimiters) or at least one alias (plain substring). -/
def lineMatches (flagKey : GoStr) (aliases : List GoStr) (delimiters : GoStr)
    (line : GoStr) : Bool :=
  matchDelimiters line flagKey delimiters
    || !(aliases.filter (fun al => strContains line al)).isEmpty

/-- The loop of Go `file.aggregateHunksForFlag` (search.go): `n` iterations
remain, `i` is the current index into the (fixed-length) line array, `lines`
is the current state of the file's lines (mutated by truncation), and
`hunksForFlag` is the accumulator. -/
def aggLoop (path projKey flagKey : GoStr) (flagAliases : List GoStr) (ctxLines : Int)
    (delimiters : GoStr) : Nat → Nat → List GoStr → List HunkRep →
    Except Unit (List HunkRep × List GoStr)
  | 0, _, lines, hunksForFlag => Except.ok (hunksForFlag, lines)
  | n + 1, i, lines, hunksForFlag =>
      match (file.mk path lines).linesIfMatch projKey flagKey (lines.getD i [])
          flagAliases i ctxLines delimiters with
      | Except.error e => Except.error e
      | Except.ok (none, lines') =>
          aggLoop path projKey flagKey flagAliases ctxLines delimiters n (i + 1) lines' hunksForFlag
      | Except.ok (some m, lines') =>
          let hunks' :=
            match hunksForFlag.getLast? with
            | some lastHunk =>
                if 0 ≤ lastHunk.Overlap m then
                  hunksForFlag.dropLast ++ mergeHunks lastHunk m ctxLines
                else hunksForFlag ++ [m]
            | none => hunksForFlag ++ [m]
          aggLoop path projKey flagKey flagAliases ctxLines delimiters n (i + 1) lines' hunks'

/-- Go `file.aggregateHunksForFlag` (search.go): scans every line of the file
in order, merging each match into the running hunk list.  The iteration count
is the line count at entry (Go's `range f.lines` fixes the length once). -/
def file.aggregateHunksForFlag (f : file) (projKey flagKey : GoStr)
    (flagAliases : List GoStr) (ctxLines : Int) (delimiters : GoStr) :
    Except Unit (List HunkRep × List GoStr) :=
  aggLoop f.path projKey flagKey flagAliases ctxLines delimiters f.lines.length 0 f.lines []

/-- Modelled from the spec: `ld.ReferenceHunksRep` (not in src/): a file path
plus its ordered list of hunks across all identifiers. -/
structure ReferenceHunksRep where
  Path : GoStr
  Hunks : List HunkRep
deriving DecidableEq

/-- The loop of Go `file.toHunks` over the identifier table, threading the
(mutating) line state between identifiers.  Go iterates the `aliases` map in
unspecified order; the embedding takes the table as an association list and
iterates in list order. -/
def toHunksLoop (path projKey : GoStr) (ctxLines : Int) (delimiters : GoStr) :
    List (GoStr × List GoStr) → List GoStr → List HunkRep →
    Except Unit (List HunkRep × List GoStr)
  | [], lines, hunks => Except.ok (hunks, lines)
  | (flagKey, flagAliases) :: rest, lines, hunks =>
      match (file.mk path lines).aggregateHunksForFlag projKey flagKey flagAliases
          ctxLines delimiters with
      | Except.error e => Except.error e
      | Except.ok (hs, lines') => toHunksLoop path projKey ctxLines delimiters rest lines' (hunks ++ hs)

/-- Go `file.toHunks` (search.go): aggregates over every identifier and
returns `none` when no identifier matched anywhere in the file. -/
def file.toHunks (f : file) (projKey : GoStr) (aliases : List (GoStr × List GoStr))
    (ctxLines : Int) (delimiters : GoStr) :
    Except Unit (Option ReferenceHunksRep × List GoStr) :=
  match toHunksLoop f.path projKey ctxLines delimiters aliases f.lines [] with
  | Except.error e => Except.error e
  | Except.ok (hunks, lines') =>
      Except.ok ((if hunks = [] then none else some { Path := f.path, Hunks := hunks }), lines')

/-- The consuming loop of Go `SearchForRefs` (search.go): appends each arriving
per-file result, returning early once `maxFileCount` files have been accepted
or once the cumulative hunk count exceeds `maxHunkCount`. -/
def consumeReferences : List ReferenceHunksRep → Nat → List ReferenceHunksRep →
    List ReferenceHunksRep
  | ret, _, [] => ret
  | ret, totalHunks, reference :: rest =>
      let ret' := ret ++ [reference]
      if maxFileCount ≤ ret'.length then ret'
      else
        let totalHunks' := totalHunks + reference.Hunks.length
        if maxHunkCount < totalHunks' then ret'
        else consumeReferences ret' totalHunks' rest

/-- Go `SearchForRefs` (search.go), restricted to its consuming loop: the
goroutine fan-out delivers per-file results on a channel in some order; that
arrival order is abstracted as the input list.  The Go function always returns
a nil error, so the embedding returns the accepted collection directly. -/
def SearchForRefs (references : List ReferenceHunksRep) : List ReferenceHunksRep :=
  consumeReferences [] 0 references

/-! ### Sample data for the concrete parts of the claims -/

/-- Nine short rows; the key `k` (delimiter `'`) matches at 1-based lines 5
and 7, so with one context line the candidate windows are [4-6] and [6-8]. -/
def demoLines : List GoStr :=
  [("r1").toList, ("r2").toList, ("r3").toList, ("r4").toList, ("'k'").toList,
   ("r6").toList, ("'k'").toList, ("r8").toList, ("r9").toList]

/-- The file built from `demoLines`. -/
def demoFile : file := { path := [], lines := demoLines }

/-- Six rows with matches at 1-based lines 5 and 6: with three context lines
the second candidate window is entirely covered by the first. -/
def subLines : List GoStr :=
  [("r1").toList, ("r2").toList, ("r3").toList, ("r4").toList, ("'k'").toList,
   ("'k'").toList]

/-- The file built from `subLines`. -/
def subFile : file := { path := [], lines := subLines }

/-- Four rows with matches at 1-based lines 1 and 4: with no context lines the
two resulting hunks stay disjoint. -/
def dupFile : file :=
  { path := [], lines := [("'k'").toList, ("x1").toList, ("x2").toList, ("'k'").toList] }

/-- An earlier hunk covering lines 4-6. -/
def aW : HunkRep :=
  { ProjKey := [], FlagKey := [], StartingLineNumber := 4,
    Lines := ("a4\na5\na6").toList, Aliases := [] }

/-- A later hunk covering lines 6-8 (overlapping `aW` in line 6). -/
def bW : HunkRep :=
  { ProjKey := [], FlagKey := [], StartingLineNumber := 6,
    Lines := ("b6\nb7\nb8").toList, Aliases := [] }

/-- A line of 200 three-byte characters (600 bytes, 200 runes) followed by a
delimited occurrence of `flag`. -/
def euroLine : GoStr := List.replicate 200 '€' ++ ("'flag'").toList

/-- A 606-byte ASCII line whose delimited `flag` occurrence starts beyond the
500-character truncation limit. -/
def longLineA : GoStr := List.replicate 600 'a' ++ ("'flag'").toList

/-- The truncation of `longLineA`. -/
def truncLineA : GoStr := List.replicate 500 'a' ++ ['…']

/-- Like `longLineA` but with `b`, for the matching-before-truncation claim. -/
def longLineB : GoStr := List.replicate 600 'b' ++ ("'flag'").toList

/-- The truncation of `longLineB`. -/
def truncLineB : GoStr := List.replicate 500 'b' ++ ['…']

/-- A line containing two aliases as substrings. -/
def aliasLine : GoStr := ("uses alphaFlag and betaFlag").toList

/-- The hunk `linesIfMatch` produces for a match at 0-based line `i` when
`ctxLines < 0`: empty text, only the match location. -/
def negHunk (projKey flagKey : GoStr) (als : List GoStr) (line : GoStr) (i : Nat) : HunkRep :=
  { ProjKey := projKey
    FlagKey := flagKey
    StartingLineNumber := (i : Int) + 1
    Lines := []
    Aliases := (als.filter (fun al => strContains line al)).foldl (fun _acc al => [al]) [] }

/-- Number of arriving per-file results the consuming loop accepts, starting
from `retLen` already-accepted files and `totalHunks` already-counted hunks. -/
def stopCount : Nat → Nat → List ReferenceHunksRep → Nat
  | _, _, [] => 0
  | retLen, totalHunks, r :: rest =>
      if maxFileCount ≤ retLen + 1 then 1
      else if maxHunkCount < totalHunks + r.Hunks.length then 1
      else 1 + stopCount (retLen + 1) (totalHunks + r.Hunks.length) rest

/-- A sample hunk for exercising the consuming loop. -/
def oneHunk : HunkRep :=
  { ProjKey := [], FlagKey := [], StartingLineNumber := 1, Lines := [], Aliases := [] }

/-- A per-file result with exactly one hunk. -/
def oneRef : ReferenceHunksRep := { Path := [], Hunks := [oneHunk] }

/-- A per-file result with exactly 1000 hunks. -/
def kiloRef : ReferenceHunksRep := { Path := [], Hunks := List.replicate 1000 oneHunk }

/-- The hunks the aggregation loop produces for indices `i, i+1, ..., i+n-1`
when `ctxLines < 0`: one `negHunk` per matching line, in order. -/
def negExtras (projKey flagKey : GoStr) (als : List GoStr) (delims : GoStr) :
    Nat → Nat → List GoStr → List HunkRep
  | 0, _, _ => []
  | n + 1, i, lines =>
      (if lineMatches flagKey als delims (lines.getD i []) then
        [negHunk projKey flagKey als (lines.getD i []) i]
      else [])
      ++ negExtras projKey flagKey als delims n (i + 1) lines

/-- A two-line file whose both lines match the key `k` with delimiter `'`. -/
def adjFile : file := { path := [], lines := [("'k'").toList, ("'k'").toList] }

/-- Two hunks in aggregation order: the first starts strictly earlier and its
covered line range ends before the second one starts (`Overlap ≤ 0`: they
share no line). -/
def hunkSeparated (h1 h2 : HunkRep) : Prop :=
  h1.StartingLineNumber < h2.StartingLineNumber ∧ h1.Overlap h2 ≤ 0

/-- Upper bound for the starting line of the last accumulated hunk before the
loop processes index `i`. -/
def lastBound (ctx : Int) (i : Nat) : Int :=
  if 0 ≤ ctx then (((i : Int) - ctx).toNat : Int) + 1 else (i : Int)

/-! ### Helper lemmas about the string model -/

theorem startsWithChars_iff (p s : GoStr) : startsWithChars p s = true ↔ p <+: s := by
  induction p generalizing s with
  | nil => simp [startsWithChars]
  | cons a ps ih =>
      cases s with
      | nil => simp [startsWithChars]
      | cons c cs =>
          simp only [startsWithChars, List.cons_prefix_cons]
          by_cases hac : a = c
          · simp [hac, ih]
          · simp [hac]

theorem strContains_iff (s p : GoStr) : strContains s p = true ↔ p <:+: s := by
  simp only [strContains, List.any_eq_true, List.mem_tails, startsWithChars_iff]
  constructor
  · rintro ⟨t, hts, hpt⟩
    exact List.infix_iff_prefix_suffix.mpr ⟨t, hpt, hts⟩
  · intro h
    obtain ⟨t, hpt, hts⟩ := List.infix_iff_prefix_suffix.mp h
    exact ⟨t, hts, hpt⟩

theorem splitNL_ne_nil (s : GoStr) : splitNL s ≠ [] := by
  cases s with
  | nil => simp [splitNL]
  | cons c cs =>
      simp only [splitNL]
      split
      · simp
      · split <;> simp

theorem splitNL_length (s : GoStr) : (splitNL s).length = countNL s + 1 := by
  induction s with
  | nil => simp [splitNL, countNL]
  | cons c cs ih =>
      simp only [splitNL, countNL, List.count_cons] at *
      by_cases hc : c = '\n'
      · simp [hc, ih]
      · have hbeq : (c == '\n') = false := by simp [hc]
        simp only [if_neg hc, hbeq]
        cases hs : splitNL cs with
        | nil => exact absurd hs (splitNL_ne_nil cs)
        | cons l ls => rw [hs] at ih; simpa using ih

theorem splitNL_no_newline (s : GoStr) : ∀ r ∈ splitNL s, '\n' ∉ r := by
  induction s with
  | nil => simp [splitNL]
  | cons c cs ih =>
      simp only [splitNL]
      by_cases hc : c = '\n'
      · simp only [if_pos hc]
        intro r hr
        rcases List.mem_cons.mp hr with h | h
        · simp [h]
        · exact ih r h
      · simp only [if_neg hc]
        cases hs : splitNL cs with
        | nil => exact absurd hs (splitNL_ne_nil cs)
        | cons l ls =>
            intro r hr
            rcases List.mem_cons.mp hr with h | h
            · subst h
              intro hmem
              rcases List.mem_cons.mp hmem with h' | h'
              · exact hc h'.symm
              · exact ih l (hs ▸ List.mem_cons_self l ls) h'
            · exact ih r (hs ▸ List.mem_cons_of_mem l h)

theorem splitNL_no_newline_eq (r : GoStr) (h : '\n' ∉ r) : splitNL r = [r] := by
  induction r with
  | nil => simp [splitNL]
  | cons c cs ih =>
      have hc : c ≠ '\n' := fun hc => h (hc ▸ List.mem_cons_self c cs)
      have hcs : '\n' ∉ cs := fun hm => h (List.mem_cons_of_mem c hm)
      simp only [splitNL, if_neg hc, ih hcs]

theorem splitNL_append_newline (r t : GoStr) (h : '\n' ∉ r) :
    splitNL (r ++ '\n' :: t) = r :: splitNL t := by
  induction r with
  | nil => simp [splitNL]
  | cons c cs ih =>
      have hc : c ≠ '\n' := fun hc => h (hc ▸ List.mem_cons_self c cs)
      have hcs : '\n' ∉ cs := fun hm => h (List.mem_cons_of_mem c hm)
      simp only [List.cons_append, splitNL, if_neg hc]
      rw [show cs.append ('\n' :: t) = cs ++ '\n' :: t from rfl, ih hcs]

theorem splitNL_joinNL (rows : List GoStr) (hne : rows ≠ [])
    (hnl : ∀ r ∈ rows, '\n' ∉ r) : splitNL (joinNL rows) = rows := by
  induction rows with
  | nil => exact absurd rfl hne
  | cons r rs ih =>
      cases rs with
      | nil =>
          simp only [joinNL]
          exact splitNL_no_newline_eq r (hnl r (List.mem_cons_self r []))
      | cons r2 rest =>
          have hr : '\n' ∉ r := hnl r (List.mem_cons_self r (r2 :: rest))
          have : joinNL (r :: r2 :: rest) = r ++ '\n' :: joinNL (r2 :: rest) := rfl
          rw [this, splitNL_append_newline r _ hr,
            ih (by simp) (fun x hx => hnl x (List.mem_cons_of_mem r hx))]

theorem NumLines_pos (h : HunkRep) : 1 ≤ h.NumLines := by
  simp [HunkRep.NumLines]

/-! ### Helper lemmas about `linesIfMatch` -/

theorem linesIfMatch_neg_ctx (f : file) (projKey flagKey line : GoStr) (als : List GoStr)
    (i : Nat) (ctx : Int) (d : GoStr) (hneg : ctx < 0) :
    f.linesIfMatch projKey flagKey line als i ctx d =
      if lineMatches flagKey als d line then
        Except.ok (some (negHunk projKey flagKey als line i), f.lines)
      else Except.ok (none, f.lines) := by
  unfold file.linesIfMatch lineMatches negHunk
  have hnot : ¬ (0 ≤ ctx) := by omega
  by_cases hm : matchDelimiters line flagKey d = true
  · simp [hm, hnot, joinNL]
  · by_cases ha : als.filter (fun al => strContains line al) = []
    · simp [hm, ha]
    · simp [hm, ha, hnot, joinNL, List.isEmpty_iff]

theorem linesIfMatch_ok_some_start (f : file) (projKey flagKey line : GoStr) (als : List GoStr)
    (i : Nat) (ctx : Int) (d : GoStr) (m : HunkRep) (ls' : List GoStr)
    (hctx : 0 ≤ ctx)
    (h : f.linesIfMatch projKey flagKey line als i ctx d = Except.ok (some m, ls')) :
    m.StartingLineNumber = (((i : Int) - ctx).toNat : Int) + 1 := by
  simp only [file.linesIfMatch] at h
  by_cases hg : (matchDelimiters line flagKey d = false
      ∧ (als.filter (fun al => strContains line al)) = [])
  · rw [if_pos hg] at h
    exact absurd h (by simp)
  · rw [if_neg hg, if_pos hctx] at h
    by_cases hb : (((i : Int) - ctx).toNat) ≤ f.lines.length
    · rw [if_pos hb] at h
      repeat' split at h
      · exact absurd h (by simp)
      · injection h with h1
        injection h1 with h2 h3
        injection h2 with h4
        rw [← h4]
    · rw [if_neg hb] at h
      exact absurd h (by simp)

/-! ### The consuming loop of `SearchForRefs`: cap characterization -/

theorem consume_eq_take (refs : List ReferenceHunksRep) :
    ∀ (ret : List ReferenceHunksRep) (total : Nat),
      consumeReferences ret total refs = ret ++ refs.take (stopCount ret.length total refs) := by
  induction refs with
  | nil => intro ret total; simp [consumeReferences, stopCount]
  | cons r rest ih =>
      intro ret total
      simp only [consumeReferences, stopCount]
      by_cases h1 : maxFileCount ≤ (ret ++ [r]).length
      · have h1' : maxFileCount ≤ ret.length + 1 := by simpa using h1
        rw [if_pos h1, if_pos h1']
        simp
      · have h1' : ¬ maxFileCount ≤ ret.length + 1 := by simpa using h1
        rw [if_neg h1, if_neg h1']
        by_cases h2 : maxHunkCount < total + r.Hunks.length
        · rw [if_pos h2, if_pos h2]
          simp
        · rw [if_neg h2, if_neg h2]
          have hlen : (ret ++ [r]).length = ret.length + 1 := by simp
          rw [ih (ret ++ [r]) (total + r.Hunks.length), hlen, Nat.add_comm 1 _,
            List.take_succ_cons, List.append_assoc]
          rfl

theorem stopCount_ones (refs : List ReferenceHunksRep) :
    ∀ (m t : Nat), (∀ r ∈ refs, r.Hunks.length = 1) → m + 1 ≤ maxFileCount →
      t + (maxFileCount - m) ≤ maxHunkCount → maxFileCount - m ≤ refs.length →
      stopCount m t refs = maxFileCount - m := by
  induction refs with
  | nil =>
      intro m t _ h1 h2 h3
      simp only [List.length_nil] at h3
      simp only [stopCount]
      omega
  | cons r rest ih =>
      intro m t hall h1 h2 h3
      have hr : r.Hunks.length = 1 := hall r (List.mem_cons_self r rest)
      simp only [stopCount, hr, List.length_cons] at *
      by_cases hc1 : maxFileCount ≤ m + 1
      · rw [if_pos hc1]; omega
      · rw [if_neg hc1]
        have hc2 : ¬ maxHunkCount < t + 1 := by omega
        rw [if_neg hc2]
        rw [ih (m + 1) (t + 1) (fun x hx => hall x (List.mem_cons_of_mem r hx))
          (by omega) (by omega) (by omega)]
        omega

theorem stopCount_thousands (refs : List ReferenceHunksRep) :
    ∀ (m : Nat), (∀ r ∈ refs, r.Hunks.length = 1000) → m < 26 →
      26 - m ≤ refs.length →
      stopCount m (1000 * m) refs = 26 - m := by
  have hF : maxFileCount = 10000 := rfl
  have hH : maxHunkCount = 25000 := rfl
  induction refs with
  | nil =>
      intro m _ h1 h2
      simp only [List.length_nil] at h2
      simp only [stopCount]
      omega
  | cons r rest ih =>
      intro m hall h1 h2
      have hr : r.Hunks.length = 1000 := hall r (List.mem_cons_self r rest)
      simp only [stopCount, hr, List.length_cons] at *
      have hc1 : ¬ maxFileCount ≤ m + 1 := by omega
      rw [if_neg hc1]
      by_cases hc2 : maxHunkCount < 1000 * m + 1000
      · rw [if_pos hc2]; omega
      · rw [if_neg hc2]
        have hm25 : m < 25 := by omega
        have : 1000 * m + 1000 = 1000 * (m + 1) := by ring
        rw [this, ih (m + 1) (fun x hx => hall x (List.mem_cons_of_mem r hx))
          (by omega) (by omega)]
        omega

/-- C7: the consuming loop of `SearchForRefs` enforces both global caps: 20,000
files with exactly one hunk each yield exactly `maxFileCount = 10000` accepted
entries (the accepted prefix); 30 files with 1000 hunks each (30,000 hunks
jointly) are accepted only up to the first file whose addition pushes the
cumulative hunk count past `maxHunkCount = 25000` (26 files, 26,000 hunks: one
more than the 25 files whose 25,000 hunks do not exceed the cap); in both
cases the accepted prefix is returned, not an error. -/
theorem SearchForRefs_caps :
    (∀ refs : List ReferenceHunksRep, refs.length = 20000 →
        (∀ r ∈ refs, r.Hunks.length = 1) →
        SearchForRefs refs = refs.take 10000 ∧ (SearchForRefs refs).length = 10000)
    ∧ (∀ refs : List ReferenceHunksRep, refs.length = 30 →
        (∀ r ∈ refs, r.Hunks.length = 1000) →
        SearchForRefs refs = refs.take 26
          ∧ maxHunkCount < ((refs.take 26).map (fun r => r.Hunks.length)).sum
          ∧ ((refs.take 25).map (fun r => r.Hunks.length)).sum ≤ maxHunkCount) := by
  have hF : maxFileCount = 10000 := rfl
  have hH : maxHunkCount = 25000 := rfl
  constructor
  · intro refs hlen hall
    have hstop : stopCount 0 0 refs = 10000 := by
      have := stopCount_ones refs 0 0 hall (by omega) (by omega) (by omega)
      omega
    have heq : SearchForRefs refs = refs.take 10000 := by
      rw [SearchForRefs, consume_eq_take refs [] 0]
      simp [hstop]
    refine ⟨heq, ?_⟩
    rw [heq, List.length_take, hlen]
    omega
  · intro refs hlen hall
    have hstop : stopCount 0 0 refs = 26 := by
      have := stopCount_thousands refs 0 hall (by omega) (by omega)
      simpa using this
    have heq : SearchForRefs refs = refs.take 26 := by
      rw [SearchForRefs, consume_eq_take refs [] 0]
      simp [hstop]
    refine ⟨heq, ?_, ?_⟩
    · have hsub : ∀ b ∈ (refs.take 26).map (fun r => r.Hunks.length), b = 1000 := by
        intro b hb
        obtain ⟨x, hx, rfl⟩ := List.mem_map.mp hb
        exact hall x (List.mem_of_mem_take hx)
      rw [List.eq_replicate_of_mem hsub]
      simp [List.length_take, hlen, hH]
    · have hsub : ∀ b ∈ (refs.take 25).map (fun r => r.Hunks.length), b = 1000 := by
        intro b hb
        obtain ⟨x, hx, rfl⟩ := List.mem_map.mp hb
        exact hall x (List.mem_of_mem_take hx)
      rw [List.eq_replicate_of_mem hsub]
      simp [List.length_take, hlen, hH]

/-- Witness for C7: the cap theorem applied to 20,000 one-hunk files and to 30
thousand-hunk files. -/
theorem SearchForRefs_caps_witness :
    (SearchForRefs (List.replicate 20000 oneRef)).length = 10000
    ∧ SearchForRefs (List.replicate 30 kiloRef) = (List.replicate 30 kiloRef).take 26 :=
  ⟨(SearchForRefs_caps.1 (List.replicate 20000 oneRef) (by rw [List.length_replicate])
      (fun r hr => by rw [List.eq_of_mem_replicate hr]; rfl)).2,
   (SearchForRefs_caps.2 (List.replicate 30 kiloRef) (by rw [List.length_replicate])
      (fun r hr => by rw [List.eq_of_mem_replicate hr]; simp [kiloRef])).1⟩

/-! ### Branch lemmas for `mergeHunks` -/

theorem mergeHunks_neg_ctx (a b : HunkRep) (ctx : Int) (hctx : ctx < 0)
    (hord : ¬ b.StartingLineNumber < a.StartingLineNumber) :
    mergeHunks a b ctx = [a, b] := by
  simp only [mergeHunks]
  rw [if_neg hord, if_neg hord]
  have hc : ctx < 0 ∨ a.Overlap b < 0 := Or.inl hctx
  rw [if_pos hc]

theorem mergeHunks_subset (a b : HunkRep) (ctx : Int) (hctx : 0 ≤ ctx)
    (hord : ¬ b.StartingLineNumber < a.StartingLineNumber)
    (hsub : ((splitNL b.Lines).length : Int) ≤ a.Overlap b) :
    mergeHunks a b ctx = [a] := by
  have hov : 0 ≤ a.Overlap b := by
    have := splitNL_ne_nil b.Lines
    have hpos : 0 < (splitNL b.Lines).length := List.length_pos.mpr this
    omega
  simp only [mergeHunks]
  rw [if_neg hord, if_neg hord]
  have hc : ¬ (ctx < 0 ∨ a.Overlap b < 0) := by omega
  rw [if_neg hc, if_pos hsub]

theorem mergeHunks_merge (a b : HunkRep) (ctx : Int) (hctx : 0 ≤ ctx)
    (hord : ¬ b.StartingLineNumber < a.StartingLineNumber)
    (hov : 0 ≤ a.Overlap b)
    (hlt : a.Overlap b < ((splitNL b.Lines).length : Int)) :
    mergeHunks a b ctx
      = [{ StartingLineNumber := a.StartingLineNumber
           Lines := joinNL (splitNL a.Lines ++ (splitNL b.Lines).drop (a.Overlap b).toNat)
           ProjKey := a.ProjKey
           FlagKey := a.FlagKey
           Aliases := Dedupe (a.Aliases ++ b.Aliases) }] := by
  simp only [mergeHunks]
  rw [if_neg hord, if_neg hord]
  have hc : ¬ (ctx < 0 ∨ a.Overlap b < 0) := by omega
  have hsub : ¬ ((splitNL b.Lines).length : Int) ≤ a.Overlap b := by omega
  rw [if_neg hc, if_neg hsub]

/-! ### Negative context: one empty-text hunk per matching line, no merging -/

theorem aggLoop_neg_ctx (path projKey flagKey : GoStr) (als : List GoStr) (ctx : Int)
    (delims : GoStr) (hneg : ctx < 0) :
    ∀ (n i : Nat) (lines : List GoStr) (hunks : List HunkRep),
      (∀ h ∈ hunks, h.StartingLineNumber ≤ (i : Int)) →
      aggLoop path projKey flagKey als ctx delims n i lines hunks
        = Except.ok (hunks ++ negExtras projKey flagKey als delims n i lines, lines) := by
  intro n
  induction n with
  | zero => intro i lines hunks _; simp [aggLoop, negExtras]
  | succ n ih =>
      intro i lines hunks hbound
      have hLIM := linesIfMatch_neg_ctx (file.mk path lines) projKey flagKey
        (lines.getD i []) als i ctx delims hneg
      by_cases hm : lineMatches flagKey als delims (lines.getD i [])
      · rw [if_pos hm] at hLIM
        simp only [aggLoop, hLIM]
        have hout :
            (match hunks.getLast? with
              | some lastHunk =>
                  if 0 ≤ lastHunk.Overlap (negHunk projKey flagKey als (lines.getD i []) i) then
                    hunks.dropLast
                      ++ mergeHunks lastHunk (negHunk projKey flagKey als (lines.getD i []) i) ctx
                  else hunks ++ [negHunk projKey flagKey als (lines.getD i []) i]
              | none => hunks ++ [negHunk projKey flagKey als (lines.getD i []) i])
            = hunks ++ [negHunk projKey flagKey als (lines.getD i []) i] := by
          rcases List.eq_nil_or_concat hunks with hnil | ⟨ys, lastH, hconcat⟩
          · rw [hnil]; rfl
          · subst hconcat
            simp only [List.concat_eq_append] at hbound ⊢
            rw [List.getLast?_concat]
            have hlast : lastH.StartingLineNumber ≤ (i : Int) :=
              hbound lastH (List.mem_append_right ys (List.mem_singleton.mpr rfl))
            have hord : ¬ (negHunk projKey flagKey als (lines.getD i []) i).StartingLineNumber
                < lastH.StartingLineNumber := by
              simp only [negHunk]
              omega
            split
            · rename_i lastHunk heq
              injection heq with heq'
              subst heq'
              split
              · rw [mergeHunks_neg_ctx _ _ ctx hneg hord, List.dropLast_concat]
                simp
              · rfl
            · rename_i heq
              simp at heq
        rw [hout]
        rw [ih (i + 1) lines (hunks ++ [negHunk projKey flagKey als (lines.getD i []) i]) ?_]
        · simp only [negExtras, if_pos hm, List.append_assoc, List.singleton_append]
        · intro h hh
          rcases List.mem_append.mp hh with hin | hin
          · have := hbound h hin; omega
          · rw [List.mem_singleton.mp hin]
            simp only [negHunk]
            omega
      · rw [if_neg hm] at hLIM
        simp only [aggLoop, hLIM]
        rw [ih (i + 1) lines hunks (fun h hh => by have := hbound h hh; omega)]
        simp only [negExtras, if_neg hm]
        simp

theorem negExtras_length (projKey flagKey : GoStr) (als : List GoStr) (delims : GoStr) :
    ∀ (n i : Nat) (lines : List GoStr), i + n = lines.length →
      (negExtras projKey flagKey als delims n i lines).length
        = ((lines.drop i)).countP (fun l => lineMatches flagKey als delims l) := by
  intro n
  induction n with
  | zero =>
      intro i lines h
      have hd : lines.drop i = [] := List.drop_eq_nil_of_le (by omega)
      simp [negExtras, hd]
  | succ n ih =>
      intro i lines h
      have hi : i < lines.length := by omega
      have hdrop : lines.drop i = lines[i] :: lines.drop (i + 1) := List.drop_eq_getElem_cons hi
      have hgetD : lines.getD i [] = lines[i] := List.getD_eq_getElem lines [] hi
      rw [hdrop, List.countP_cons]
      simp only [negExtras, hgetD]
      rw [List.length_append, ih (i + 1) lines (by omega)]
      by_cases hm : lineMatches flagKey als delims lines[i] <;> simp [hm] <;> omega

theorem negExtras_lines_empty (projKey flagKey : GoStr) (als : List GoStr) (delims : GoStr) :
    ∀ (n i : Nat) (lines : List GoStr),
      ∀ h ∈ negExtras projKey flagKey als delims n i lines, h.Lines = [] := by
  intro n
  induction n with
  | zero => intro i lines h hh; simp [negExtras] at hh
  | succ n ih =>
      intro i lines h hh
      simp only [negExtras] at hh
      rcases List.mem_append.mp hh with hin | hin
      · split at hin
        · rw [List.mem_singleton.mp hin]; rfl
        · simp at hin
      · exact ih (i + 1) lines h hin

/-- C6: when `contextLines` is negative, every match produces a hunk with an
empty excerpt window (empty text, only the 1-based match location), merging is
disabled (each matching line yields its own hunk, regardless of adjacency:
exactly one hunk per matching line), and the file's lines are untouched. -/
theorem aggregate_neg_ctx_spec (f : file) (projKey flagKey : GoStr) (als : List GoStr)
    (ctx : Int) (delims : GoStr) (hneg : ctx < 0) :
    f.aggregateHunksForFlag projKey flagKey als ctx delims
      = Except.ok (negExtras projKey flagKey als delims f.lines.length 0 f.lines, f.lines)
    ∧ (negExtras projKey flagKey als delims f.lines.length 0 f.lines).length
        = f.lines.countP (fun l => lineMatches flagKey als delims l)
    ∧ ∀ h ∈ negExtras projKey flagKey als delims f.lines.length 0 f.lines, h.Lines = [] := by
  refine ⟨?_, ?_, negExtras_lines_empty projKey flagKey als delims f.lines.length 0 f.lines⟩
  · rw [file.aggregateHunksForFlag,
      aggLoop_neg_ctx f.path projKey flagKey als ctx delims hneg f.lines.length 0 f.lines []
        (by intro h hh; simp at hh)]
    simp
  · rw [negExtras_length projKey flagKey als delims f.lines.length 0 f.lines (by omega)]
    simp

/-- Witness for C6: the negative-context theorem applied to a two-line file
with adjacent matches and `ctxLines = -1`. -/
theorem aggregate_neg_ctx_spec_witness :
    adjFile.aggregateHunksForFlag [] (("k").toList) [] (-1) (("'").toList)
      = Except.ok (negExtras [] (("k").toList) [] (("'").toList)
          adjFile.lines.length 0 adjFile.lines, adjFile.lines)
    ∧ (negExtras [] (("k").toList) [] (("'").toList)
          adjFile.lines.length 0 adjFile.lines).length
        = adjFile.lines.countP (fun l => lineMatches (("k").toList) [] (("'").toList) l)
    ∧ ∀ h ∈ negExtras [] (("k").toList) [] (("'").toList)
          adjFile.lines.length 0 adjFile.lines, h.Lines = [] :=
  aggregate_neg_ctx_spec adjFile [] (("k").toList) [] (-1) (("'").toList) (by omega)

/-! ### Sortedness and disjointness of the aggregated hunk list (C8) -/

theorem lastBound_mono (ctx : Int) (i : Nat) : lastBound ctx i ≤ lastBound ctx (i + 1) := by
  unfold lastBound
  split <;> omega

theorem hunkSeparated_extend (x y m : HunkRep) (hxy : hunkSeparated x y)
    (hym : y.StartingLineNumber < m.StartingLineNumber) : hunkSeparated x m := by
  obtain ⟨h1, h2⟩ := hxy
  unfold hunkSeparated HunkRep.Overlap at *
  constructor <;> omega

theorem hunkSeparated_congr (x y z : HunkRep) (hxy : hunkSeparated x y)
    (hz : z.StartingLineNumber = y.StartingLineNumber) : hunkSeparated x z := by
  obtain ⟨h1, h2⟩ := hxy
  unfold hunkSeparated HunkRep.Overlap at *
  constructor <;> omega

theorem hunkSeparated_of_overlap_neg (y m : HunkRep) (h : y.Overlap m < 0) :
    hunkSeparated y m := by
  have hnum := NumLines_pos y
  unfold hunkSeparated HunkRep.Overlap at *
  constructor <;> omega

theorem hunkSeparated_empty_lines (y m : HunkRep) (hempty : y.Lines = [])
    (hlt : y.StartingLineNumber < m.StartingLineNumber) : hunkSeparated y m := by
  have hnum : y.NumLines = 1 := by simp [HunkRep.NumLines, hempty, countNL]
  unfold hunkSeparated HunkRep.Overlap at *
  rw [hnum]
  constructor <;> omega

theorem linesIfMatch_ok_some_neg (f : file) (projKey flagKey line : GoStr) (als : List GoStr)
    (i : Nat) (ctx : Int) (d : GoStr) (m : HunkRep) (ls' : List GoStr) (hneg : ctx < 0)
    (h : f.linesIfMatch projKey flagKey line als i ctx d = Except.ok (some m, ls')) :
    m.StartingLineNumber = (i : Int) + 1 ∧ m.Lines = [] ∧ ls' = f.lines := by
  rw [linesIfMatch_neg_ctx f projKey flagKey line als i ctx d hneg] at h
  by_cases hm : lineMatches flagKey als d line
  · rw [if_pos hm] at h
    injection h with h1
    injection h1 with h2 h3
    injection h2 with h4
    refine ⟨?_, ?_, h3.symm⟩ <;> rw [← h4] <;> rfl
  · rw [if_neg hm] at h
    exact absurd h (by simp)

theorem aggLoop_pairwise (path projKey flagKey : GoStr) (als : List GoStr) (ctx : Int)
    (delims : GoStr) :
    ∀ (n i : Nat) (lines : List GoStr) (hunks : List HunkRep) (hs : List HunkRep)
      (ls : List GoStr),
      hunks.Pairwise hunkSeparated →
      (∀ h, hunks.getLast? = some h →
        h.StartingLineNumber ≤ lastBound ctx i ∧ (ctx < 0 → h.Lines = [])) →
      aggLoop path projKey flagKey als ctx delims n i lines hunks = Except.ok (hs, ls) →
      hs.Pairwise hunkSeparated := by
  intro n
  induction n with
  | zero =>
      intro i lines hunks hs ls hpw _ hrun
      simp only [aggLoop] at hrun
      injection hrun with h1
      injection h1 with h2 h3
      rw [← h2]
      exact hpw
  | succ n ih =>
      intro i lines hunks hs ls hpw hbound hrun
      cases hLIM : (file.mk path lines).linesIfMatch projKey flagKey (lines.getD i [])
          als i ctx delims with
      | error e =>
          rw [aggLoop, hLIM] at hrun
          exact absurd hrun (by simp)
      | ok p =>
          obtain ⟨o, lines'⟩ := p
          cases o with
          | none =>
              rw [aggLoop, hLIM] at hrun
              exact ih (i + 1) lines' hunks hs ls hpw
                (fun h hh =>
                  ⟨le_trans (hbound h hh).1 (lastBound_mono ctx i), (hbound h hh).2⟩) hrun
          | some m =>
              rw [aggLoop, hLIM] at hrun
              have hmbound : m.StartingLineNumber ≤ lastBound ctx (i + 1)
                  ∧ (ctx < 0 → m.Lines = []) := by
                by_cases hctx : 0 ≤ ctx
                · have hstart := linesIfMatch_ok_some_start (file.mk path lines) projKey flagKey
                    (lines.getD i []) als i ctx delims m lines' hctx hLIM
                  refine ⟨?_, fun hneg => absurd hctx (by omega)⟩
                  rw [hstart]
                  unfold lastBound
                  rw [if_pos hctx]
                  omega
                · have hneg : ctx < 0 := by omega
                  obtain ⟨hstart, hlines, -⟩ := linesIfMatch_ok_some_neg (file.mk path lines)
                    projKey flagKey (lines.getD i []) als i ctx delims m lines' hneg hLIM
                  refine ⟨?_, fun _ => hlines⟩
                  rw [hstart]
                  unfold lastBound
                  rw [if_neg hctx]
                  omega
              rcases List.eq_nil_or_concat hunks with hnil | ⟨ys, lastH, hconcat⟩
              · subst hnil
                simp only [List.getLast?_nil, List.nil_append] at hrun
                exact ih (i + 1) lines' [m] hs ls (by simp)
                  (by
                    intro h hh
                    simp only [List.getLast?_singleton, Option.some.injEq] at hh
                    rw [← hh]
                    exact hmbound) hrun
              · subst hconcat
                simp only [List.concat_eq_append] at hpw hbound hrun
                have hlastb := hbound lastH (by simp)
                rcases List.pairwise_append.mp hpw with ⟨hpys, -, hrel⟩
                have hPx : ∀ x ∈ ys, hunkSeparated x lastH :=
                  fun x hx => hrel x hx lastH (by simp)
                have hred :
                    (match (ys ++ [lastH]).getLast? with
                      | some lastHunk =>
                          if 0 ≤ lastHunk.Overlap m then
                            (ys ++ [lastH]).dropLast ++ mergeHunks lastHunk m ctx
                          else (ys ++ [lastH]) ++ [m]
                      | none => (ys ++ [lastH]) ++ [m])
                    = (if 0 ≤ lastH.Overlap m then ys ++ mergeHunks lastH m ctx
                        else (ys ++ [lastH]) ++ [m]) := by
                  rw [List.getLast?_concat]
                  split
                  · rename_i lastHunk heq
                    injection heq with heq'
                    subst heq'
                    rw [List.dropLast_concat]
                  · rename_i heq
                    simp at heq
                rw [hred] at hrun
                by_cases hov : 0 ≤ lastH.Overlap m
                · rw [if_pos hov] at hrun
                  have hord : ¬ m.StartingLineNumber < lastH.StartingLineNumber := by
                    by_cases hctx : 0 ≤ ctx
                    · have hstart := linesIfMatch_ok_some_start (file.mk path lines) projKey
                        flagKey (lines.getD i []) als i ctx delims m lines' hctx hLIM
                      have hlb := hlastb.1
                      unfold lastBound at hlb
                      rw [if_pos hctx] at hlb
                      omega
                    · have hneg : ctx < 0 := by omega
                      obtain ⟨hstart, -, -⟩ := linesIfMatch_ok_some_neg (file.mk path lines)
                        projKey flagKey (lines.getD i []) als i ctx delims m lines' hneg hLIM
                      have hlb := hlastb.1
                      unfold lastBound at hlb
                      rw [if_neg (by omega : ¬ (0:Int) ≤ ctx)] at hlb
                      omega
                  by_cases hctx : 0 ≤ ctx
                  · by_cases hsub : ((splitNL m.Lines).length : Int) ≤ lastH.Overlap m
                    · rw [mergeHunks_subset lastH m ctx hctx hord hsub] at hrun
                      exact ih (i + 1) lines' (ys ++ [lastH]) hs ls hpw
                        (by
                          intro h hh
                          rw [List.getLast?_concat] at hh
                          injection hh with hh'
                          rw [← hh']
                          exact ⟨le_trans hlastb.1 (lastBound_mono ctx i), hlastb.2⟩) hrun
                    · rw [mergeHunks_merge lastH m ctx hctx hord hov (by omega)] at hrun
                      refine ih (i + 1) lines' (ys ++ [_]) hs ls ?_ ?_ hrun
                      · refine List.pairwise_append.mpr ⟨hpys, by simp, ?_⟩
                        intro x hx y hy
                        rw [List.mem_singleton.mp hy]
                        exact hunkSeparated_congr x lastH _ (hPx x hx) rfl
                      · intro h hh
                        rw [List.getLast?_concat] at hh
                        injection hh with hh'
                        rw [← hh']
                        refine ⟨le_trans hlastb.1 (lastBound_mono ctx i),
                          fun hneg => absurd hctx (by omega)⟩
                  · have hneg : ctx < 0 := by omega
                    rw [mergeHunks_neg_ctx lastH m ctx hneg hord] at hrun
                    obtain ⟨hstart, -, -⟩ := linesIfMatch_ok_some_neg (file.mk path lines)
                      projKey flagKey (lines.getD i []) als i ctx delims m lines' hneg hLIM
                    have hlb := hlastb.1
                    have hlbneg : lastH.StartingLineNumber ≤ (i : Int) := by
                      unfold lastBound at hlb
                      rwa [if_neg hctx] at hlb
                    have hlm : lastH.StartingLineNumber < m.StartingLineNumber := by omega
                    have hsep_lm : hunkSeparated lastH m :=
                      hunkSeparated_empty_lines lastH m (hlastb.2 hneg) hlm
                    have hys : ys ++ [lastH, m] = (ys ++ [lastH]) ++ [m] := by simp
                    rw [hys] at hrun
                    refine ih (i + 1) lines' ((ys ++ [lastH]) ++ [m]) hs ls ?_ ?_ hrun
                    · refine List.pairwise_append.mpr ⟨hpw, by simp, ?_⟩
                      intro x hx y hy
                      rw [List.mem_singleton.mp hy]
                      rcases List.mem_append.mp hx with hin | hin
                      · exact hunkSeparated_extend x lastH m (hPx x hin) hlm
                      · rw [List.mem_singleton.mp hin]
                        exact hsep_lm
                    · intro h hh
                      rw [List.getLast?_concat] at hh
                      injection hh with hh'
                      rw [← hh']
                      exact hmbound
                · rw [if_neg hov] at hrun
                  have hsep_lm : hunkSeparated lastH m :=
                    hunkSeparated_of_overlap_neg lastH m (by omega)
                  refine ih (i + 1) lines' ((ys ++ [lastH]) ++ [m]) hs ls ?_ ?_ hrun
                  · refine List.pairwise_append.mpr ⟨hpw, by simp, ?_⟩
                    intro x hx y hy
                    rw [List.mem_singleton.mp hy]
                    rcases List.mem_append.mp hx with hin | hin
                    · exact hunkSeparated_extend x lastH m (hPx x hin) hsep_lm.1
                    · rw [List.mem_singleton.mp hin]
                      exact hsep_lm
                  · intro h hh
                    rw [List.getLast?_concat] at hh
                    injection hh with hh'
                    rw [← hh']
                    exact hmbound

/-- C8: for every file and identifier, whenever per-identifier aggregation
returns a hunk list, that list is ordered by strictly ascending starting line
and no two of its hunks overlap (each pair is separated: the earlier hunk's
covered range ends before the later one starts). -/
theorem aggregate_sorted_disjoint (f : file) (projKey flagKey : GoStr) (als : List GoStr)
    (ctx : Int) (delims : GoStr) (hs : List HunkRep) (ls : List GoStr)
    (hok : f.aggregateHunksForFlag projKey flagKey als ctx delims = Except.ok (hs, ls)) :
    hs.Pairwise hunkSeparated := by
  exact aggLoop_pairwise f.path projKey flagKey als ctx delims f.lines.length 0 f.lines []
    hs ls (by simp) (by intro h hh; simp at hh) hok

/-! ### The claim theorems -/

/-- C1: with `contextLines ≥ 0`, two overlapping-or-adjacent candidate
excerpts for the same identifier are combined into a single hunk keeping the
earlier starting line, whose text is the earlier excerpt's rows followed by
only the not-yet-covered rows of the later excerpt (row count = earlier rows
plus later rows minus the overlap, so no row is duplicated); a candidate
entirely covered by the previous hunk contributes nothing; concretely, matches
at lines 5 and 7 with `contextLines = 1` (windows [4-6] and [6-8]) aggregate
to exactly one hunk spanning lines 4-8 with line 6 not duplicated, and a
covered candidate (windows [2-6] and [3-6]) leaves the single hunk [2-6]. -/
theorem merge_policy_spec :
    (∀ (a b : HunkRep) (ctx : Int), 0 ≤ ctx →
        a.StartingLineNumber ≤ b.StartingLineNumber →
        0 ≤ a.Overlap b → a.Overlap b < ((splitNL b.Lines).length : Int) →
        mergeHunks a b ctx
          = [{ StartingLineNumber := a.StartingLineNumber
               Lines := joinNL (splitNL a.Lines ++ (splitNL b.Lines).drop (a.Overlap b).toNat)
               ProjKey := a.ProjKey
               FlagKey := a.FlagKey
               Aliases := Dedupe (a.Aliases ++ b.Aliases) }]
          ∧ (splitNL (joinNL (splitNL a.Lines
                ++ (splitNL b.Lines).drop (a.Overlap b).toNat))).length
              = (splitNL a.Lines).length + (splitNL b.Lines).length - (a.Overlap b).toNat)
    ∧ (∀ (a b : HunkRep) (ctx : Int), 0 ≤ ctx →
        a.StartingLineNumber ≤ b.StartingLineNumber →
        ((splitNL b.Lines).length : Int) ≤ a.Overlap b →
        mergeHunks a b ctx = [a])
    ∧ demoFile.aggregateHunksForFlag [] (("k").toList) [] 1 (("'").toList)
        = Except.ok ([{ ProjKey := []
                        FlagKey := ("k").toList
                        StartingLineNumber := 4
                        Lines := ("r4\n'k'\nr6\n'k'\nr8").toList
                        Aliases := [] }], demoFile.lines)
    ∧ subFile.aggregateHunksForFlag [] (("k").toList) [] 3 (("'").toList)
        = Except.ok ([{ ProjKey := []
                        FlagKey := ("k").toList
                        StartingLineNumber := 2
                        Lines := ("r2\nr3\nr4\n'k'\n'k'").toList
                        Aliases := [] }], subFile.lines) := by
  refine ⟨?_, ?_, by rfl, by rfl⟩
  · intro a b ctx hctx hab hov hlt
    have hord : ¬ b.StartingLineNumber < a.StartingLineNumber := by omega
    refine ⟨mergeHunks_merge a b ctx hctx hord hov hlt, ?_⟩
    have hne : splitNL a.Lines ++ (splitNL b.Lines).drop (a.Overlap b).toNat ≠ [] := by
      intro hcontra
      exact splitNL_ne_nil a.Lines (List.append_eq_nil.mp hcontra).1
    have hnl : ∀ r ∈ splitNL a.Lines ++ (splitNL b.Lines).drop (a.Overlap b).toNat,
        '\n' ∉ r := by
      intro r hr
      rcases List.mem_append.mp hr with hin | hin
      · exact splitNL_no_newline a.Lines r hin
      · exact splitNL_no_newline b.Lines r (List.mem_of_mem_drop hin)
    rw [splitNL_joinNL _ hne hnl, List.length_append, List.length_drop]
    omega
  · intro a b ctx hctx hab hsub
    have hord : ¬ b.StartingLineNumber < a.StartingLineNumber := by omega
    exact mergeHunks_subset a b ctx hctx hord hsub

/-- Witness for C1: the merge-policy theorem applied to concrete hunks
covering lines 4-6 and 6-8 with one overlapping line. -/
theorem merge_policy_spec_witness :
    mergeHunks aW bW 1
        = [{ StartingLineNumber := aW.StartingLineNumber
             Lines := joinNL (splitNL aW.Lines ++ (splitNL bW.Lines).drop (aW.Overlap bW).toNat)
             ProjKey := aW.ProjKey
             FlagKey := aW.FlagKey
             Aliases := Dedupe (aW.Aliases ++ bW.Aliases) }]
      ∧ (splitNL (joinNL (splitNL aW.Lines
            ++ (splitNL bW.Lines).drop (aW.Overlap bW).toNat))).length
          = (splitNL aW.Lines).length + (splitNL bW.Lines).length - (aW.Overlap bW).toNat :=
  merge_policy_spec.1 aW bW 1 (by decide) (by decide) (by decide) (by decide)

/-- C2 (code bug): the matching-and-aggregation pipeline is not total — a line
of 200 three-byte characters (600 bytes but only 200 runes) makes
`truncateLine` slice `runes[0:500]` out of bounds, a Go panic (modelled as
`none` / `Except.error ()`), which propagates through `linesIfMatch`,
`aggregateHunksForFlag` and `toHunks`. -/
theorem matching_pipeline_panic :
    truncateLine (List.replicate 200 '€') = none
    ∧ (file.mk [] [euroLine]).toHunks [] [((("flag").toList), [])] 0 (("'").toList)
        = Except.error () :=
  ⟨rfl, rfl⟩

/-- C3 (code bug): on a line containing two configured aliases, the produced
hunk's alias list holds only the last matched alias (`ret.Aliases` is
overwritten, not appended, on each iteration), not the full set of matched
aliases the spec requires. -/
theorem linesIfMatch_last_alias_only :
    (file.mk [] [aliasLine]).linesIfMatch [] (("flag").toList) aliasLine
        [("alphaFlag").toList, ("betaFlag").toList] 0 0 (("'").toList)
      = Except.ok (some { ProjKey := []
                          FlagKey := ("flag").toList
                          StartingLineNumber := 1
                          Lines := aliasLine
                          Aliases := [("betaFlag").toList] }, [aliasLine])
    ∧ strContains aliasLine (("alphaFlag").toList) = true
    ∧ strContains aliasLine (("betaFlag").toList) = true
    ∧ ([("betaFlag").toList] : List GoStr) ≠ [("alphaFlag").toList, ("betaFlag").toList] :=
  ⟨rfl, rfl, rfl, by decide⟩

/-- C4: a line produces a primary match for an identifier iff some left and
some right delimiter characters from the configured set (possibly equal)
flank the identifier somewhere in the line; `"x = 'flag'"` matches `flag`
with delimiter set `"\"'"` while `"x = flagged"` does not. -/
theorem matchDelimiters_spec :
    (∀ (line flagKey delimiters : GoStr),
        matchDelimiters line flagKey delimiters = true
          ↔ ∃ left ∈ delimiters, ∃ right ∈ delimiters,
              (left :: (flagKey ++ [right])) <:+: line)
    ∧ matchDelimiters (("x = 'flag'").toList) (("flag").toList) (("\"'").toList) = true
    ∧ matchDelimiters (("x = flagged").toList) (("flag").toList) (("\"'").toList) = false := by
  refine ⟨?_, by decide, by decide⟩
  intro line flagKey delimiters
  simp only [matchDelimiters, List.any_eq_true, strContains_iff]

/-- C5 (code bug): `truncateLine` leaves a 500-byte-or-shorter line unchanged
and truncates a 10,000-ASCII-character line to exactly its first 500
characters plus one ellipsis, but on a line whose byte length exceeds 500
while its character count does not (300 three-byte characters) the rune-slice
bound is out of range and Go panics (modelled as `none`) instead of returning
the truncated or unchanged line. -/
theorem truncateLine_multibyte_panic :
    truncateLine (List.replicate 300 '€') = none
    ∧ truncateLine (List.replicate 10000 'a') = some (List.replicate 500 'a' ++ ['…'])
    ∧ truncateLine (("short line").toList) = some (("short line").toList) := by
  refine ⟨rfl, ?_, rfl⟩
  have h1 : utf8Len (List.replicate 10000 'a') = 10000 := by
    rw [utf8Len, List.map_replicate, show Char.utf8Size 'a' = 1 from rfl,
      List.sum_replicate, smul_eq_mul, Nat.mul_one]
  rw [truncateLine, h1, List.length_replicate]
  rw [if_neg (by decide : ¬ (10000 ≤ maxLineCharCount))]
  rw [if_pos (by decide : maxLineCharCount ≤ 10000)]
  rw [List.take_replicate]
  norm_num [maxLineCharCount]

/-- Witness for C8: the sortedness/disjointness theorem applied to a concrete
four-line file with matches at lines 1 and 4 and no context. -/
theorem aggregate_sorted_disjoint_witness :
    List.Pairwise hunkSeparated
      [{ ProjKey := [], FlagKey := ("k").toList, StartingLineNumber := 1,
         Lines := ("'k'").toList, Aliases := [] },
       { ProjKey := [], FlagKey := ("k").toList, StartingLineNumber := 4,
         Lines := ("'k'").toList, Aliases := [] }] :=
  aggregate_sorted_disjoint dupFile [] (("k").toList) [] 0 (("'").toList)
    [{ ProjKey := [], FlagKey := ("k").toList, StartingLineNumber := 1,
       Lines := ("'k'").toList, Aliases := [] },
     { ProjKey := [], FlagKey := ("k").toList, StartingLineNumber := 4,
       Lines := ("'k'").toList, Aliases := [] }] dupFile.lines (by rfl)

/-- C9 (code bug): processing a file mutates it — the `context` slice aliases
`f.lines`, so truncating a long matched line writes the truncated text back
into the file's line sequence: after `toHunks` the file's only line is its
truncated form, not the original. -/
theorem toHunks_mutates_lines :
    (file.mk [] [longLineA]).toHunks [] [((("flag").toList), [])] 0 (("'").toList)
      = Except.ok (some { Path := []
                          Hunks := [{ ProjKey := []
                                      FlagKey := ("flag").toList
                                      StartingLineNumber := 1
                                      Lines := truncLineA
                                      Aliases := [] }] }, [truncLineA])
    ∧ [truncLineA] ≠ [longLineA] :=
  ⟨rfl, by decide⟩

/-- C10: matching is evaluated on the original, untruncated line and
truncation applies only to the output text: a 606-byte line whose only
delimited `flag` occurrence starts beyond the 500-character limit still
produces a hunk, whose text no longer contains the identifier. -/
theorem match_on_original_line :
    (file.mk [] [longLineB]).linesIfMatch [] (("flag").toList) longLineB [] 0 0
        (("'").toList)
      = Except.ok (some { ProjKey := []
                          FlagKey := ("flag").toList
                          StartingLineNumber := 1
                          Lines := truncLineB
                          Aliases := [] }, [truncLineB])
    ∧ strContains truncLineB (("flag").toList) = false
    ∧ strContains longLineB (("flag").toList) = true :=
  ⟨rfl, rfl, rfl⟩

end CodeRefs
